import Mathlib

/-!
Verification of the profile-synchronization core of the wow-sync repository.

The embedding models the TypeScript sources shallowly:
* `electron/services/profileManager.ts` — local Profile Store, capture, apply, backup;
* `electron/services/googleDrive.ts` — remote store client and `syncProfiles`;
* `electron/main.ts` — the `gdrive:sync` handler (reconciliation pass plus
  download-apply phase).

Timestamps: every timestamp in the source is an ISO string compared only
through `new Date(s).getTime()`; the embedding therefore represents each
timestamp directly by its parsed value, a `Nat`.  Wall-clock time is a
`clock : Nat` threaded through the effectful operations; each write that
assigns a fresh time consumes the current clock value and advances it.
-/

namespace WowSync

/-- The closed set of game release channels (`WoWVersion` in `src/types/index.ts`). -/
inductive WoWVersion where
  | retail
  | classic
  | classic_era
deriving DecidableEq, Repr

/-- The closed set of supported add-on names (`AddonName` in `src/types/index.ts`). -/
inductive AddonName where
  | ConsolePort
  | ElvUI
  | WeakAuras
  | Details
  | DBM
  | BigWigs
  | Bartender4
  | Dominos
deriving DecidableEq, Repr

/-- `AddonConfig` from `src/types/index.ts`: the enabled flag plus the map from
scoped file key to raw file content.  The record map `files` is an association
list in insertion order. -/
structure AddonConfig where
  enabled : Bool
  files : List (String × String)
deriving DecidableEq, Repr

/-- `Profile` from `src/types/index.ts`.  `createdAt`/`updatedAt` are the parsed
timestamp values; the `addons` object is an association list keyed by add-on
name in insertion order. -/
structure Profile where
  id : String
  name : String
  description : Option String
  device : Option String
  createdAt : Nat
  updatedAt : Nat
  wowVersion : WoWVersion
  accountName : Option String
  addons : List (AddonName × AddonConfig)
  gameSettings : Option String
deriving DecidableEq, Repr

/-- One file of the local profiles directory, as `listProfiles` sees it: either
a record that decodes to a `Profile`, or one whose read/`JSON.parse` throws.
Only the `.json` files of the directory are modelled, in directory-enumeration
order. -/
inductive RawRecord where
  | ok (p : Profile)
  | bad
deriving DecidableEq, Repr

namespace ProfileManager

/-- The body of the `try` block of `listProfiles`: push parsed profiles in
directory order; the first record whose read or parse throws aborts the loop
(the exception is caught by the surrounding `try`/`catch`), keeping what was
already pushed. -/
def readAll : List RawRecord → List Profile
  | [] => []
  | RawRecord.ok p :: rest => p :: readAll rest
  | RawRecord.bad :: _ => []

/-- The comparator of `listProfiles`'s sort, as a relation: `a` may come before
`b` when `b.updatedAt ≤ a.updatedAt` (the JS comparator returns
`bTime - aTime`). -/
def updLE (a b : Profile) : Prop := b.updatedAt ≤ a.updatedAt

instance : DecidableRel updLE := fun a b => Nat.decLe b.updatedAt a.updatedAt

instance : IsTotal Profile updLE := ⟨fun a b => Nat.le_total b.updatedAt a.updatedAt⟩

instance : IsTrans Profile updLE := ⟨fun _ _ _ h h' => Nat.le_trans h' h⟩

/-- `Array.prototype.sort` with the comparator `bTime - aTime` is a stable
descending sort by `updatedAt`; any stable sort realizes it, so the embedding
uses insertion sort. -/
def sortByUpdatedDesc (l : List Profile) : List Profile := List.insertionSort updLE l

/-- `ProfileManager.listProfiles` (profileManager.ts:71-90): read the records of
the profiles directory until the first failure, then sort newest-first. -/
def listProfiles (store : List RawRecord) : List Profile :=
  sortByUpdatedDesc (readAll store)

/-- Write of the file `<id>.json`: replace the record with the same id in
place, else the new file appears at the end of the directory enumeration. -/
def storeUpsert (p : Profile) : List Profile → List Profile
  | [] => [p]
  | q :: rest => if q.id = p.id then p :: rest else q :: storeUpsert p rest

/-- `ProfileManager.saveProfile` (profileManager.ts:103-107): overwrite
`updatedAt` with the current time, then write `<id>.json`. -/
def saveProfile (now : Nat) (p : Profile) (store : List Profile) : List Profile :=
  storeUpsert { p with updatedAt := now } store

/-- Lookup of the record stored for an id (the file `<id>.json`). -/
def storeGet (store : List Profile) (id : String) : Option Profile :=
  store.find? (fun q => q.id = id)

theorem storeGet_upsert_self (p : Profile) (store : List Profile) :
    storeGet (storeUpsert p store) p.id = some p := by
  induction store with
  | nil => simp [storeGet, storeUpsert]
  | cons q rest ih =>
    by_cases h : q.id = p.id
    · simp [storeGet, storeUpsert, h]
    · simpa [storeGet, storeUpsert, h] using ih

theorem storeGet_upsert_ne (p : Profile) (store : List Profile) (id : String)
    (h : p.id ≠ id) : storeGet (storeUpsert p store) id = storeGet store id := by
  induction store with
  | nil => simp [storeGet, storeUpsert, h]
  | cons q rest ih =>
    simp only [storeUpsert]
    by_cases hq : q.id = p.id
    · have hqi : ¬q.id = id := by rw [hq]; exact h
      simp [storeGet, hq, List.find?_cons, h, hqi]
    · rw [if_neg hq]
      by_cases hqi : q.id = id
      · simp [storeGet, List.find?_cons, hqi]
      · simpa [storeGet, List.find?_cons, hqi] using ih

theorem readAll_append_ok (l : List Profile) :
    readAll (l.map RawRecord.ok) = l := by
  induction l with
  | nil => rfl
  | cons p rest ih => simpa [readAll] using ih

/-- `readAll` keeps exactly the decodable records preceding the first
undecodable one. -/
theorem readAll_eq_takeWhile (store : List RawRecord) :
    readAll store
      = (store.takeWhile (fun r => match r with | RawRecord.ok _ => true | RawRecord.bad => false)).filterMap
          (fun r => match r with | RawRecord.ok p => some p | RawRecord.bad => none) := by
  induction store with
  | nil => rfl
  | cons r rest ih =>
    cases r with
    | ok p => simpa [readAll, List.takeWhile] using ih
    | bad => simp [readAll, List.takeWhile]

theorem filter_orderedInsert (x : Profile) (t : Nat) :
    ∀ s : List Profile,
      (s.orderedInsert updLE x).filter (fun p => p.updatedAt == t)
        = if x.updatedAt = t then x :: s.filter (fun p => p.updatedAt == t)
          else s.filter (fun p => p.updatedAt == t) := by
  intro s
  induction s with
  | nil => by_cases hx : x.updatedAt = t <;> simp [List.orderedInsert, hx]
  | cons b l ih =>
    by_cases hle : updLE x b
    · rw [List.orderedInsert, if_pos hle]
      by_cases hx : x.updatedAt = t <;> simp [hx]
    · rw [List.orderedInsert, if_neg hle]
      have hlt : x.updatedAt < b.updatedAt := Nat.lt_of_not_le hle
      by_cases hb : b.updatedAt = t
      · have hx : ¬x.updatedAt = t := by
          intro hx
          exact Nat.lt_irrefl _ (hx ▸ hb ▸ hlt)
        simp [hb, hx, ih]
      · simp [hb, ih]

theorem filter_sortByUpdatedDesc (t : Nat) (l : List Profile) :
    (sortByUpdatedDesc l).filter (fun p => p.updatedAt == t)
      = l.filter (fun p => p.updatedAt == t) := by
  induction l with
  | nil => rfl
  | cons x l ih =>
    rw [sortByUpdatedDesc, List.insertionSort]
    rw [filter_orderedInsert x t (List.insertionSort updLE l)]
    by_cases hx : x.updatedAt = t
    · simp [hx, ← ih, sortByUpdatedDesc]
    · simp [hx, ← ih, sortByUpdatedDesc]

end ProfileManager

/-- `SyncResult` from googleDrive.ts: the three name lists of a pass. -/
structure SyncResult where
  uploaded : List String
  downloaded : List String
  conflicts : List String
deriving DecidableEq, Repr

/-- One blob of the remote store, as `listRemoteProfiles` surfaces it.  Every
blob's Drive file name is `profile-<id>.json` (injective in the id), so the
embedding stores the id encoded in the file name as `fid`; `modifiedTime` is
the server-assigned last-modified timestamp and `profile` the decoded blob
content. -/
structure RemoteEntry where
  fid : String
  modifiedTime : Nat
  profile : Profile
deriving DecidableEq, Repr

namespace GoogleDriveService

/-- The remote map of `syncProfiles`:
`new Map(remoteProfiles.map((r) => [r.profile.id, r]))` — a JS `Map` keeps the
last binding for a duplicated key, which the left fold realizes. -/
def remoteMapGet (remotes : List RemoteEntry) (id : String) : Option RemoteEntry :=
  remotes.foldl (fun acc r => if r.profile.id = id then some r else acc) none

/-- `GoogleDriveService.uploadProfile` (googleDrive.ts:207-241): look the blob
`profile-<id>.json` up by name; update the first match in place (the server
stamps a fresh `modifiedTime`), else create a new blob. -/
def uploadProfile (now : Nat) (p : Profile) : List RemoteEntry → List RemoteEntry
  | [] => [⟨p.id, now, p⟩]
  | e :: rest =>
    if e.fid = p.id then ⟨e.fid, now, p⟩ :: rest else e :: uploadProfile now p rest

/-- The decision of the per-local-profile loop of `syncProfiles` to upload:
no remote blob with the same id, or the local `updatedAt` is strictly greater
than the remote `modifiedTime`. -/
def upDec (snap : List RemoteEntry) (L : Profile) : Bool :=
  match remoteMapGet snap L.id with
  | none => true
  | some r => decide (r.modifiedTime < L.updatedAt)

/-- The decision of the per-local-profile loop of `syncProfiles` to mark for
download: a remote blob with the same id exists and its `modifiedTime` is
strictly greater than the local `updatedAt`. -/
def dlDec (snap : List RemoteEntry) (L : Profile) : Bool :=
  match remoteMapGet snap L.id with
  | none => false
  | some r => decide (L.updatedAt < r.modifiedTime)

/-- The per-local-profile loop of `syncProfiles` (googleDrive.ts:322-341).
`snap` is the remote listing taken once at the start of the pass (the `Map` is
never refreshed); `store` is the live remote store mutated by the uploads;
`res` accumulates the result lists; `clock` advances on each upload. -/
def syncLoop (snap : List RemoteEntry) :
    List Profile → List RemoteEntry → SyncResult → Nat →
      List RemoteEntry × SyncResult × Nat
  | [], store, res, clock => (store, res, clock)
  | L :: rest, store, res, clock =>
    match remoteMapGet snap L.id with
    | none =>
      syncLoop snap rest (uploadProfile clock L store)
        { res with uploaded := res.uploaded ++ [L.name] } (clock + 1)
    | some r =>
      if r.modifiedTime < L.updatedAt then
        syncLoop snap rest (uploadProfile clock L store)
          { res with uploaded := res.uploaded ++ [L.name] } (clock + 1)
      else if L.updatedAt < r.modifiedTime then
        syncLoop snap rest store
          { res with downloaded := res.downloaded ++ [L.name] } clock
      else
        syncLoop snap rest store res clock

/-- The remote-only scan of `syncProfiles` (googleDrive.ts:343-349): the names
of the remote profiles whose id appears in no local profile. -/
def remoteOnlyNames (locals : List Profile) (snap : List RemoteEntry) : List String :=
  (snap.filter fun r => !(locals.any fun p => p.id == r.profile.id)).map
    fun r => r.profile.name

/-- `GoogleDriveService.syncProfiles` (googleDrive.ts:303-352): one comparison
pass.  Returns the remote store after the uploads, the `SyncResult`, and the
advanced clock. -/
def syncProfiles (locals : List Profile) (remotes : List RemoteEntry)
    (clock : Nat) : List RemoteEntry × SyncResult × Nat :=
  let r := syncLoop remotes locals remotes ⟨[], [], []⟩ clock
  (r.1, { r.2.1 with downloaded := r.2.1.downloaded ++ remoteOnlyNames locals remotes },
    r.2.2)

theorem syncLoop_uploaded (snap : List RemoteEntry) (ls : List Profile) :
    ∀ store res clock,
      (syncLoop snap ls store res clock).2.1.uploaded
        = res.uploaded ++ (ls.filter (upDec snap)).map (·.name) := by
  induction ls with
  | nil => intro store res clock; simp [syncLoop]
  | cons L rest ih =>
    intro store res clock
    rw [syncLoop]
    cases h : remoteMapGet snap L.id with
    | none => simp [ih, upDec, h]
    | some r =>
      by_cases h1 : r.modifiedTime < L.updatedAt
      · simp [h1, ih, upDec, h]
      · by_cases h2 : L.updatedAt < r.modifiedTime
        · simp [h1, h2, ih, upDec, h]
        · simp [h1, h2, ih, upDec, h]

theorem syncLoop_downloaded (snap : List RemoteEntry) (ls : List Profile) :
    ∀ store res clock,
      (syncLoop snap ls store res clock).2.1.downloaded
        = res.downloaded ++ (ls.filter (dlDec snap)).map (·.name) := by
  induction ls with
  | nil => intro store res clock; simp [syncLoop]
  | cons L rest ih =>
    intro store res clock
    rw [syncLoop]
    cases h : remoteMapGet snap L.id with
    | none => simp [ih, dlDec, h]
    | some r =>
      by_cases h1 : r.modifiedTime < L.updatedAt
      · have h2 : ¬L.updatedAt < r.modifiedTime := Nat.lt_asymm h1
        simp [h1, ih, dlDec, h, h2]
      · by_cases h2 : L.updatedAt < r.modifiedTime
        · simp [h1, h2, ih, dlDec, h]
        · simp [h1, h2, ih, dlDec, h]

theorem syncLoop_store_of_no_upload (snap : List RemoteEntry) (ls : List Profile) :
    ∀ store res clock, ls.filter (upDec snap) = [] →
      (syncLoop snap ls store res clock).1 = store := by
  induction ls with
  | nil => intro store res clock _; simp [syncLoop]
  | cons L rest ih =>
    intro store res clock hf
    have hL : upDec snap L = false := by
      by_contra hc
      have : upDec snap L = true := by
        cases hb : upDec snap L
        · exact absurd hb hc
        · rfl
      simp [List.filter, this] at hf
    have hrest : rest.filter (upDec snap) = [] := by
      simpa [List.filter, hL] using hf
    rw [syncLoop]
    cases h : remoteMapGet snap L.id with
    | none => simp [upDec, h] at hL
    | some r =>
      by_cases h1 : r.modifiedTime < L.updatedAt
      · simp [upDec, h, h1] at hL
      · by_cases h2 : L.updatedAt < r.modifiedTime
        · simp [h1, h2, ih _ _ _ hrest]
        · simp [h1, h2, ih _ _ _ hrest]

theorem syncProfiles_uploaded (locals : List Profile) (remotes : List RemoteEntry)
    (clock : Nat) :
    (syncProfiles locals remotes clock).2.1.uploaded
      = (locals.filter (upDec remotes)).map (·.name) := by
  simp [syncProfiles, syncLoop_uploaded]

theorem syncProfiles_downloaded (locals : List Profile) (remotes : List RemoteEntry)
    (clock : Nat) :
    (syncProfiles locals remotes clock).2.1.downloaded
      = (locals.filter (dlDec remotes)).map (·.name)
        ++ remoteOnlyNames locals remotes := by
  simp [syncProfiles, syncLoop_downloaded]

theorem syncProfiles_store_of_no_upload (locals : List Profile)
    (remotes : List RemoteEntry) (clock : Nat)
    (h : locals.filter (upDec remotes) = []) :
    (syncProfiles locals remotes clock).1 = remotes := by
  simp [syncProfiles, syncLoop_store_of_no_upload _ _ _ _ _ h]

theorem remoteMapGet_fold_of_no_match (l : List RemoteEntry) (id : String) :
    ∀ acc : Option RemoteEntry, (∀ e ∈ l, e.profile.id ≠ id) →
      l.foldl (fun acc r => if r.profile.id = id then some r else acc) acc = acc := by
  induction l with
  | nil => intro acc _; rfl
  | cons e rest ih =>
    intro acc h
    have he : e.profile.id ≠ id := h e (List.mem_cons_self e rest)
    rw [List.foldl_cons, if_neg he]
    exact ih acc fun x hx => h x (List.mem_cons_of_mem e hx)

theorem remoteMapGet_fold_of_mem (l : List RemoteEntry) (R : RemoteEntry) :
    ∀ acc : Option RemoteEntry, R ∈ l → (l.map fun e => e.profile.id).Nodup →
      l.foldl (fun acc r => if r.profile.id = R.profile.id then some r else acc) acc
        = some R := by
  induction l with
  | nil => intro acc hR _; exact absurd hR (List.not_mem_nil R)
  | cons e rest ih =>
    intro acc hR hnd
    rw [List.map_cons, List.nodup_cons] at hnd
    rcases List.mem_cons.mp hR with rfl | hR'
    · rw [List.foldl_cons, if_pos rfl]
      exact remoteMapGet_fold_of_no_match rest R.profile.id (some R)
        fun x hx hid => hnd.1 (hid ▸ List.mem_map_of_mem (fun e => e.profile.id) hx)
    · have he : e.profile.id ≠ R.profile.id := fun hid =>
        hnd.1 (hid ▸ List.mem_map_of_mem (fun e => e.profile.id) hR')
      rw [List.foldl_cons, if_neg he]
      exact ih acc hR' hnd.2

theorem remoteMapGet_eq_of_mem (remotes : List RemoteEntry) (R : RemoteEntry)
    (hR : R ∈ remotes) (hnd : (remotes.map fun e => e.profile.id).Nodup) :
    remoteMapGet remotes R.profile.id = some R :=
  remoteMapGet_fold_of_mem remotes R none hR hnd

theorem remoteMapGet_eq_none (remotes : List RemoteEntry) (id : String)
    (h : ∀ e ∈ remotes, e.profile.id ≠ id) : remoteMapGet remotes id = none :=
  remoteMapGet_fold_of_no_match remotes id none h

theorem uploadProfile_find?_ne (now : Nat) (p : Profile) (q : String)
    (h : q ≠ p.id) :
    ∀ store : List RemoteEntry,
      (uploadProfile now p store).find? (fun e => e.fid == q)
        = store.find? (fun e => e.fid == q) := by
  intro store
  induction store with
  | nil =>
    have : (p.id == q) = false := by simp [Ne.symm h]
    simp [uploadProfile, List.find?_cons, this]
  | cons e rest ih =>
    by_cases hf : e.fid = p.id
    · have hb : (p.id == q) = false := by simp [Ne.symm h]
      simp [uploadProfile, hf, List.find?_cons, hb]
    · rw [uploadProfile, if_neg hf]
      cases hq : (e.fid == q) <;> simp [List.find?_cons, hq, ih]

theorem syncLoop_find?_fid (snap : List RemoteEntry) (ls : List Profile) :
    ∀ store res clock q, (∀ L ∈ ls, L.id ≠ q) →
      ((syncLoop snap ls store res clock).1.find? (fun e => e.fid == q))
        = store.find? (fun e => e.fid == q) := by
  induction ls with
  | nil => intro store res clock q _; rfl
  | cons L rest ih =>
    intro store res clock q h
    have hL : q ≠ L.id := fun hq => h L (List.mem_cons_self L rest) hq.symm
    have hrest : ∀ x ∈ rest, x.id ≠ q := fun x hx => h x (List.mem_cons_of_mem L hx)
    cases hm : remoteMapGet snap L.id with
    | none =>
      simp only [syncLoop, hm]
      rw [ih _ _ _ _ hrest, uploadProfile_find?_ne _ _ _ hL]
    | some r =>
      simp only [syncLoop, hm]
      by_cases h1 : r.modifiedTime < L.updatedAt
      · rw [if_pos h1, ih _ _ _ _ hrest, uploadProfile_find?_ne _ _ _ hL]
      · by_cases h2 : L.updatedAt < r.modifiedTime
        · rw [if_neg h1, if_pos h2, ih _ _ _ _ hrest]
        · rw [if_neg h1, if_neg h2, ih _ _ _ _ hrest]

theorem uploadProfile_wf (now : Nat) (p : Profile) :
    ∀ store : List RemoteEntry, (∀ e ∈ store, e.fid = e.profile.id) →
      ∀ e ∈ uploadProfile now p store, e.fid = e.profile.id := by
  intro store
  induction store with
  | nil =>
    intro _ e he
    rw [uploadProfile] at he
    rcases List.mem_singleton.mp he with rfl
    rfl
  | cons x rest ih =>
    intro hwf e he
    by_cases hf : x.fid = p.id
    · rw [uploadProfile, if_pos hf] at he
      rcases List.mem_cons.mp he with rfl | he'
      · exact hf
      · exact hwf e (List.mem_cons_of_mem x he')
    · rw [uploadProfile, if_neg hf] at he
      rcases List.mem_cons.mp he with rfl | he'
      · exact hwf _ (List.mem_cons_self _ rest)
      · exact ih (fun y hy => hwf y (List.mem_cons_of_mem x hy)) e he'

theorem uploadProfile_ids (now : Nat) (p : Profile) :
    ∀ store : List RemoteEntry, (∀ e ∈ store, e.fid = e.profile.id) →
      ((uploadProfile now p store).map fun e => e.profile.id)
        = if store.any (fun e => e.fid == p.id)
          then store.map fun e => e.profile.id
          else (store.map fun e => e.profile.id) ++ [p.id] := by
  intro store
  induction store with
  | nil => intro _; simp [uploadProfile]
  | cons x rest ih =>
    intro hwf
    have hx : x.fid = x.profile.id := hwf x (List.mem_cons_self x rest)
    by_cases hf : x.fid = p.id
    · have : (x.fid == p.id) = true := by simp [hf]
      simp [uploadProfile, hf, List.any_cons, this, hx.symm]
    · have hb : (x.fid == p.id) = false := by simp [hf]
      rw [uploadProfile, if_neg hf]
      rw [List.map_cons, ih fun y hy => hwf y (List.mem_cons_of_mem x hy)]
      by_cases ha : rest.any (fun e => e.fid == p.id)
      · simp [List.any_cons, hb, ha]
      · have ha' : rest.any (fun e => e.fid == p.id) = false := by
          cases hh : rest.any (fun e => e.fid == p.id)
          · rfl
          · exact absurd hh ha
        simp [List.any_cons, hb, ha']

theorem uploadProfile_nodup (now : Nat) (p : Profile)
    (store : List RemoteEntry) (hwf : ∀ e ∈ store, e.fid = e.profile.id)
    (hnd : (store.map fun e => e.profile.id).Nodup) :
    ((uploadProfile now p store).map fun e => e.profile.id).Nodup := by
  rw [uploadProfile_ids now p store hwf]
  by_cases ha : store.any (fun e => e.fid == p.id)
  · rw [if_pos ha]; exact hnd
  · rw [if_neg ha]
    refine hnd.append (List.nodup_singleton p.id) ?_
    intro x hx hx'
    rcases List.mem_singleton.mp hx' with rfl
    obtain ⟨e, he, hid⟩ := List.mem_map.mp hx
    exact ha (List.any_eq_true.mpr ⟨e, he, by simp [hwf e he, hid]⟩)

theorem syncLoop_wf_nodup (snap : List RemoteEntry) (ls : List Profile) :
    ∀ store res clock, (∀ e ∈ store, e.fid = e.profile.id) →
      ((store.map fun e => e.profile.id).Nodup) →
      (∀ e ∈ (syncLoop snap ls store res clock).1, e.fid = e.profile.id)
      ∧ (((syncLoop snap ls store res clock).1.map fun e => e.profile.id).Nodup) := by
  induction ls with
  | nil => intro store res clock hwf hnd; exact ⟨hwf, hnd⟩
  | cons L rest ih =>
    intro store res clock hwf hnd
    cases hm : remoteMapGet snap L.id with
    | none =>
      simp only [syncLoop, hm]
      exact ih _ _ _ (uploadProfile_wf clock L store hwf)
        (uploadProfile_nodup clock L store hwf hnd)
    | some r =>
      simp only [syncLoop, hm]
      by_cases h1 : r.modifiedTime < L.updatedAt
      · rw [if_pos h1]
        exact ih _ _ _ (uploadProfile_wf clock L store hwf)
          (uploadProfile_nodup clock L store hwf hnd)
      · by_cases h2 : L.updatedAt < r.modifiedTime
        · rw [if_neg h1, if_pos h2]; exact ih _ _ _ hwf hnd
        · rw [if_neg h1, if_neg h2]; exact ih _ _ _ hwf hnd

theorem find?_fid_of_mem (store : List RemoteEntry) (R : RemoteEntry)
    (hwf : ∀ e ∈ store, e.fid = e.profile.id)
    (hnd : (store.map fun e => e.profile.id).Nodup) (hR : R ∈ store) :
    store.find? (fun e => e.fid == R.profile.id) = some R := by
  induction store with
  | nil => exact absurd hR (List.not_mem_nil R)
  | cons e rest ih =>
    rw [List.map_cons, List.nodup_cons] at hnd
    rcases List.mem_cons.mp hR with rfl | hR'
    · have : (R.fid == R.profile.id) = true := by
        simp [hwf R (List.mem_cons_self R rest)]
      simp [List.find?_cons, this]
    · have hne : e.profile.id ≠ R.profile.id := fun hid =>
        hnd.1 (hid ▸ List.mem_map_of_mem (fun x => x.profile.id) hR')
      have hb : (e.fid == R.profile.id) = false := by
        simp [hwf e (List.mem_cons_self e rest), hne]
      rw [List.find?_cons, hb]
      exact ih (fun y hy => hwf y (List.mem_cons_of_mem e hy)) hnd.2 hR'

theorem syncProfiles_fst (locals : List Profile) (remotes : List RemoteEntry)
    (clock : Nat) :
    (syncProfiles locals remotes clock).1
      = (syncLoop remotes locals remotes ⟨[], [], []⟩ clock).1 := rfl

end GoogleDriveService

/-- C1: for a local profile `L` and a remote record `R` with the same id among
the inputs of one `syncProfiles` pass, `L.name` is recorded in `uploaded` iff
`L.updatedAt > R.modifiedTime`, recorded in `downloaded` iff
`R.modifiedTime > L.updatedAt`, and equal timestamps record it in neither
list.  Identifiability hypotheses, satisfied in particular by every post-sync
state where each profile carries the same name on both sides: ids are unique
per store, local names are unique, and no remote-only record (one whose id
matches no local profile) shares `L`'s name — a remote record matched by id,
such as `R` itself, may freely carry `L`'s name. -/
theorem c1_last_write_wins (locals : List Profile) (remotes : List RemoteEntry)
    (clock : Nat) (L : Profile) (R : RemoteEntry)
    (hL : L ∈ locals) (hR : R ∈ remotes) (hid : R.profile.id = L.id)
    (hrid : (remotes.map fun e => e.profile.id).Nodup)
    (hlnames : (locals.map fun p => p.name).Nodup)
    (hro : ∀ e ∈ remotes, (∀ p ∈ locals, p.id ≠ e.profile.id) →
        e.profile.name ≠ L.name) :
    (L.name ∈ (GoogleDriveService.syncProfiles locals remotes clock).2.1.uploaded
        ↔ R.modifiedTime < L.updatedAt)
    ∧ (L.name ∈ (GoogleDriveService.syncProfiles locals remotes clock).2.1.downloaded
        ↔ L.updatedAt < R.modifiedTime)
    ∧ (L.updatedAt = R.modifiedTime →
        L.name ∉ (GoogleDriveService.syncProfiles locals remotes clock).2.1.uploaded
        ∧ L.name ∉ (GoogleDriveService.syncProfiles locals remotes clock).2.1.downloaded) := by
  have hmap : GoogleDriveService.remoteMapGet remotes L.id = some R := by
    rw [← hid]; exact GoogleDriveService.remoteMapGet_eq_of_mem remotes R hR hrid
  have hinj : ∀ a ∈ locals, ∀ b ∈ locals, a.name = b.name → a = b :=
    List.inj_on_of_nodup_map hlnames
  have hup : L.name ∈ (GoogleDriveService.syncProfiles locals remotes clock).2.1.uploaded
      ↔ R.modifiedTime < L.updatedAt := by
    rw [GoogleDriveService.syncProfiles_uploaded]
    constructor
    · intro hmem
      obtain ⟨L', hL', hname⟩ := List.mem_map.mp hmem
      obtain ⟨hL'mem, hL'dec⟩ := List.mem_filter.mp hL'
      have : L' = L := hinj L' hL'mem L hL hname
      subst this
      simpa [GoogleDriveService.upDec, hmap] using hL'dec
    · intro hlt
      refine List.mem_map.mpr ⟨L, List.mem_filter.mpr ⟨hL, ?_⟩, rfl⟩
      simp [GoogleDriveService.upDec, hmap, hlt]
  have hdl : L.name ∈ (GoogleDriveService.syncProfiles locals remotes clock).2.1.downloaded
      ↔ L.updatedAt < R.modifiedTime := by
    rw [GoogleDriveService.syncProfiles_downloaded]
    constructor
    · intro hmem
      rcases List.mem_append.mp hmem with hmem | hmem
      · obtain ⟨L', hL', hname⟩ := List.mem_map.mp hmem
        obtain ⟨hL'mem, hL'dec⟩ := List.mem_filter.mp hL'
        have : L' = L := hinj L' hL'mem L hL hname
        subst this
        simpa [GoogleDriveService.dlDec, hmap] using hL'dec
      · exfalso
        obtain ⟨r, hr, hname⟩ := List.mem_map.mp hmem
        have hrmem : r ∈ remotes := (List.mem_filter.mp hr).1
        have hcond := (List.mem_filter.mp hr).2
        have hnoloc : ∀ p ∈ locals, p.id ≠ r.profile.id := by
          intro p hp
          simp only [Bool.not_eq_eq_eq_not, Bool.not_true, List.any_eq_false] at hcond
          simpa using hcond p hp
        exact hro r hrmem hnoloc hname
    · intro hlt
      refine List.mem_append.mpr (Or.inl ?_)
      refine List.mem_map.mpr ⟨L, List.mem_filter.mpr ⟨hL, ?_⟩, rfl⟩
      simp [GoogleDriveService.dlDec, hmap, hlt]
  refine ⟨hup, hdl, fun heq => ⟨?_, ?_⟩⟩
  · rw [hup, heq]; exact Nat.lt_irrefl _
  · rw [hdl, heq]; exact Nat.lt_irrefl _

/-- C1 witness: the central case — the same profile carried under the same
name on both sides, locally strictly newer — is uploaded and not marked for
download. -/
theorem c1_witness :
    ("prof" ∈ (GoogleDriveService.syncProfiles
        [⟨"x", "prof", none, none, 0, 7, WoWVersion.retail, none, [], none⟩]
        [⟨"x", 5, ⟨"x", "prof", none, none, 0, 3, WoWVersion.retail, none, [], none⟩⟩]
        0).2.1.uploaded)
    ∧ ¬("prof" ∈ (GoogleDriveService.syncProfiles
        [⟨"x", "prof", none, none, 0, 7, WoWVersion.retail, none, [], none⟩]
        [⟨"x", 5, ⟨"x", "prof", none, none, 0, 3, WoWVersion.retail, none, [], none⟩⟩]
        0).2.1.downloaded) := by
  have h := c1_last_write_wins
    [⟨"x", "prof", none, none, 0, 7, WoWVersion.retail, none, [], none⟩]
    [⟨"x", 5, ⟨"x", "prof", none, none, 0, 3, WoWVersion.retail, none, [], none⟩⟩]
    0
    ⟨"x", "prof", none, none, 0, 7, WoWVersion.retail, none, [], none⟩
    ⟨"x", 5, ⟨"x", "prof", none, none, 0, 3, WoWVersion.retail, none, [], none⟩⟩
    (by decide) (by decide) rfl (by decide) (by decide) (by decide)
  exact ⟨h.1.mpr (by decide), fun hc => absurd (h.2.1.mp hc) (by decide)⟩

/-- Concrete sample profile used by the closed counterexample theorems. -/
def sample (i nm : String) (u : Nat) : Profile :=
  ⟨i, nm, none, none, 0, u, WoWVersion.retail, none, [], none⟩

/-- The state the `gdrive:sync` handler acts on: the local profiles directory
(in enumeration order), the remote blob store, and the wall clock. -/
structure SysState where
  locals : List Profile
  remotes : List RemoteEntry
  clock : Nat
deriving DecidableEq, Repr

/-- The apply-time condition of the download loop of the `gdrive:sync` handler
(main.ts:171-174): upsert when no profile of the pre-pass listing has the
pulled profile's id, or the pulled profile's own `updatedAt` is strictly
greater than that profile's `updatedAt`. -/
def applyDec (locals0 : List Profile) (rp : Profile) : Bool :=
  match locals0.find? fun p => p.id == rp.id with
  | none => true
  | some lp => decide (lp.updatedAt < rp.updatedAt)

/-- The download-apply loop of the `gdrive:sync` handler (main.ts:168-176):
for each pulled remote profile, look its id up in the listing taken at the
start of the handler and `saveProfile` it when `applyDec` holds. -/
def applyLoop (locals0 : List Profile) :
    List Profile → List Profile → Nat → List Profile × Nat
  | [], store, clock => (store, clock)
  | rp :: rest, store, clock =>
    match locals0.find? fun p => p.id == rp.id with
    | none => applyLoop locals0 rest (ProfileManager.saveProfile clock rp store) (clock + 1)
    | some lp =>
      if lp.updatedAt < rp.updatedAt then
        applyLoop locals0 rest (ProfileManager.saveProfile clock rp store) (clock + 1)
      else
        applyLoop locals0 rest store clock

/-- The `gdrive:sync` handler (main.ts:163-186): list the local profiles, run
one `syncProfiles` pass, and, when anything was marked for download, pull
every remote profile (`pullProfiles` re-lists the remote store, now after the
uploads) and run the download-apply loop against the pre-pass listing. -/
def gdriveSync (st : SysState) : SysState × SyncResult :=
  let localProfiles := ProfileManager.sortByUpdatedDesc st.locals
  let s := GoogleDriveService.syncProfiles localProfiles st.remotes st.clock
  if 0 < s.2.1.downloaded.length then
    let pulled := s.1.map fun e => e.profile
    let a := applyLoop localProfiles pulled st.locals s.2.2
    (⟨a.1, s.1, a.2⟩, s.2.1)
  else
    (⟨st.locals, s.1, s.2.2⟩, s.2.1)

theorem applyLoop_storeGet_of_not_mem (locals0 : List Profile)
    (pulled : List Profile) :
    ∀ store clock q, (∀ p ∈ pulled, p.id ≠ q) →
      ProfileManager.storeGet (applyLoop locals0 pulled store clock).1 q
        = ProfileManager.storeGet store q := by
  induction pulled with
  | nil => intro store clock q _; rfl
  | cons rp rest ih =>
    intro store clock q h
    have hrp : rp.id ≠ q := h rp (List.mem_cons_self rp rest)
    have hrest : ∀ p ∈ rest, p.id ≠ q := fun p hp => h p (List.mem_cons_of_mem rp hp)
    cases hf : locals0.find? fun p => p.id == rp.id with
    | none =>
      simp only [applyLoop, hf]
      rw [ih _ _ _ hrest]
      exact ProfileManager.storeGet_upsert_ne _ store q hrp
    | some lp =>
      simp only [applyLoop, hf]
      by_cases hc : lp.updatedAt < rp.updatedAt
      · rw [if_pos hc, ih _ _ _ hrest]
        exact ProfileManager.storeGet_upsert_ne _ store q hrp
      · rw [if_neg hc, ih _ _ _ hrest]

theorem applyLoop_storeGet (locals0 : List Profile) (pulled : List Profile)
    (rp : Profile) (hmem : rp ∈ pulled)
    (hnd : (pulled.map fun p => p.id).Nodup) :
    ∀ store clock,
      (applyDec locals0 rp = true →
        ∃ t, ProfileManager.storeGet (applyLoop locals0 pulled store clock).1 rp.id
          = some { rp with updatedAt := t })
      ∧ (applyDec locals0 rp = false →
        ProfileManager.storeGet (applyLoop locals0 pulled store clock).1 rp.id
          = ProfileManager.storeGet store rp.id) := by
  induction pulled with
  | nil => exact absurd hmem (List.not_mem_nil rp)
  | cons rp' rest ih =>
    intro store clock
    rw [List.map_cons, List.nodup_cons] at hnd
    rcases List.mem_cons.mp hmem with rfl | hmem'
    · have hrest : ∀ p ∈ rest, p.id ≠ rp.id := fun p hp hid =>
        hnd.1 (hid ▸ List.mem_map_of_mem (fun p => p.id) hp)
      constructor
      · intro hdec
        rw [applyDec] at hdec
        cases hf : locals0.find? fun p => p.id == rp.id with
        | none =>
          simp only [applyLoop, hf]
          refine ⟨clock, ?_⟩
          rw [applyLoop_storeGet_of_not_mem _ _ _ _ _ hrest]
          exact ProfileManager.storeGet_upsert_self _ store
        | some lp =>
          rw [hf] at hdec
          have hc : lp.updatedAt < rp.updatedAt := of_decide_eq_true hdec
          simp only [applyLoop, hf]
          rw [if_pos hc]
          refine ⟨clock, ?_⟩
          rw [applyLoop_storeGet_of_not_mem _ _ _ _ _ hrest]
          exact ProfileManager.storeGet_upsert_self _ store
      · intro hdec
        rw [applyDec] at hdec
        cases hf : locals0.find? fun p => p.id == rp.id with
        | none => rw [hf] at hdec; exact absurd hdec (by simp)
        | some lp =>
          rw [hf] at hdec
          have hc : ¬lp.updatedAt < rp.updatedAt := of_decide_eq_false hdec
          simp only [applyLoop, hf]
          rw [if_neg hc]
          exact applyLoop_storeGet_of_not_mem _ _ _ _ _ hrest
    · have hne : rp'.id ≠ rp.id := fun hid =>
        hnd.1 (hid ▸ List.mem_map_of_mem (fun p => p.id) hmem')
      cases hf : locals0.find? fun p => p.id == rp'.id with
      | none =>
        simp only [applyLoop, hf]
        have := ih hmem' hnd.2 (ProfileManager.saveProfile clock rp' store) (clock + 1)
        refine ⟨this.1, fun hdec => ?_⟩
        rw [this.2 hdec]
        exact ProfileManager.storeGet_upsert_ne _ store rp.id hne
      | some lp =>
        simp only [applyLoop, hf]
        by_cases hc : lp.updatedAt < rp'.updatedAt
        · rw [if_pos hc]
          have := ih hmem' hnd.2 (ProfileManager.saveProfile clock rp' store) (clock + 1)
          refine ⟨this.1, fun hdec => ?_⟩
          rw [this.2 hdec]
          exact ProfileManager.storeGet_upsert_ne _ store rp.id hne
        · rw [if_neg hc]
          exact ih hmem' hnd.2 store clock

theorem gdriveSync_snd (st : SysState) :
    (gdriveSync st).2
      = (GoogleDriveService.syncProfiles (ProfileManager.sortByUpdatedDesc st.locals)
          st.remotes st.clock).2.1 := by
  simp only [gdriveSync]
  split <;> rfl

theorem gdriveSync_fst_of_dl_nil (st : SysState)
    (h : (GoogleDriveService.syncProfiles (ProfileManager.sortByUpdatedDesc st.locals)
        st.remotes st.clock).2.1.downloaded = []) :
    (gdriveSync st).1
      = ⟨st.locals,
          (GoogleDriveService.syncProfiles (ProfileManager.sortByUpdatedDesc st.locals)
            st.remotes st.clock).1,
          (GoogleDriveService.syncProfiles (ProfileManager.sortByUpdatedDesc st.locals)
            st.remotes st.clock).2.2⟩ := by
  simp only [gdriveSync]
  rw [if_neg]
  rw [h]
  simp

theorem gdriveSync_fst_of_dl_pos (st : SysState)
    (h : 0 < (GoogleDriveService.syncProfiles (ProfileManager.sortByUpdatedDesc st.locals)
        st.remotes st.clock).2.1.downloaded.length) :
    (gdriveSync st).1
      = ⟨(applyLoop (ProfileManager.sortByUpdatedDesc st.locals)
            ((GoogleDriveService.syncProfiles (ProfileManager.sortByUpdatedDesc st.locals)
              st.remotes st.clock).1.map fun e => e.profile)
            st.locals
            (GoogleDriveService.syncProfiles (ProfileManager.sortByUpdatedDesc st.locals)
              st.remotes st.clock).2.2).1,
          (GoogleDriveService.syncProfiles (ProfileManager.sortByUpdatedDesc st.locals)
            st.remotes st.clock).1,
          (applyLoop (ProfileManager.sortByUpdatedDesc st.locals)
            ((GoogleDriveService.syncProfiles (ProfileManager.sortByUpdatedDesc st.locals)
              st.remotes st.clock).1.map fun e => e.profile)
            st.locals
            (GoogleDriveService.syncProfiles (ProfileManager.sortByUpdatedDesc st.locals)
              st.remotes st.clock).2.2).2⟩ := by
  simp only [gdriveSync]
  rw [if_pos h]

/-- C3: refuted by a single local profile and an empty remote store.  The
first full pass uploads it; the upload gives the remote blob a fresh
server-assigned `modifiedTime` (strictly newer than the local `updatedAt`), so
the second pass — with no intervening mutation — reports the profile in its
`downloaded` list instead of returning two empty lists. -/
theorem c3_counterexample :
    (gdriveSync ⟨[sample "a" "n" 5], [], 10⟩).2 = ⟨["n"], [], []⟩
    ∧ (gdriveSync (gdriveSync ⟨[sample "a" "n" 5], [], 10⟩).1).2.downloaded = ["n"] := by
  refine ⟨by decide, by decide⟩

/-- C3 (amended): idempotence holds only from a converged state: if a full
reconciliation pass reports no uploads and no downloads, then an immediately
following pass with no intervening mutation also reports none.  (A pass that
did transfer leaves the next pass's lists non-empty, as the counterexample
shows.) -/
theorem c3_amended_idempotence_from_converged (st : SysState)
    (hu : (gdriveSync st).2.uploaded = [])
    (hd : (gdriveSync st).2.downloaded = []) :
    (gdriveSync (gdriveSync st).1).2.uploaded = []
    ∧ (gdriveSync (gdriveSync st).1).2.downloaded = [] := by
  rw [gdriveSync_snd st] at hu hd
  have hfilter : (ProfileManager.sortByUpdatedDesc st.locals).filter
      (GoogleDriveService.upDec st.remotes) = [] := by
    rw [GoogleDriveService.syncProfiles_uploaded] at hu
    exact List.map_eq_nil_iff.mp hu
  have hdl := hd
  rw [GoogleDriveService.syncProfiles_downloaded] at hdl
  obtain ⟨hdl1, hdl2⟩ := List.append_eq_nil.mp hdl
  have hstore := GoogleDriveService.syncProfiles_store_of_no_upload
    (ProfileManager.sortByUpdatedDesc st.locals) st.remotes st.clock hfilter
  have hfst := gdriveSync_fst_of_dl_nil st hd
  rw [hstore] at hfst
  rw [hfst, gdriveSync_snd]
  constructor
  · rw [GoogleDriveService.syncProfiles_uploaded]
    simp only [hfilter, List.map_nil]
  · rw [GoogleDriveService.syncProfiles_downloaded]
    simp only [hdl1, hdl2, List.nil_append]

/-- C3 witness: from a converged state (one profile present on both sides
with equal timestamps), both passes report empty lists. -/
theorem c3_witness :
    (gdriveSync (gdriveSync ⟨[sample "a" "n" 5],
        [⟨"a", 5, sample "a" "n" 5⟩], 10⟩).1).2.uploaded = []
    ∧ (gdriveSync (gdriveSync ⟨[sample "a" "n" 5],
        [⟨"a", 5, sample "a" "n" 5⟩], 10⟩).1).2.downloaded = [] :=
  c3_amended_idempotence_from_converged
    ⟨[sample "a" "n" 5], [⟨"a", 5, sample "a" "n" 5⟩], 10⟩ (by decide) (by decide)

/-- C7: in a full `gdrive:sync` pass, a local profile whose id matches no
remote record has its name recorded in `uploaded`, and a remote record whose
id matches no local profile has its profile name recorded in `downloaded` and
is then fetched and persisted into the local store (with `updatedAt` stamped
by `saveProfile`).  Remote blob names are well-formed (`fid` is the profile
id) and remote profile ids are unique, as one blob per profile id
guarantees. -/
theorem c7_new_only_propagation (st : SysState)
    (hwf : ∀ e ∈ st.remotes, e.fid = e.profile.id)
    (hrid : (st.remotes.map fun e => e.profile.id).Nodup) :
    (∀ L ∈ st.locals, (∀ e ∈ st.remotes, e.profile.id ≠ L.id) →
      L.name ∈ (gdriveSync st).2.uploaded)
    ∧ (∀ R ∈ st.remotes, (∀ p ∈ st.locals, p.id ≠ R.profile.id) →
      R.profile.name ∈ (gdriveSync st).2.downloaded
      ∧ ∃ t, ProfileManager.storeGet (gdriveSync st).1.locals R.profile.id
          = some { R.profile with updatedAt := t }) := by
  have hperm : ∀ p : Profile,
      p ∈ ProfileManager.sortByUpdatedDesc st.locals ↔ p ∈ st.locals := by
    intro p
    rw [ProfileManager.sortByUpdatedDesc]
    exact (List.perm_insertionSort ProfileManager.updLE st.locals).mem_iff
  constructor
  · intro L hL honly
    rw [gdriveSync_snd, GoogleDriveService.syncProfiles_uploaded]
    have hdec : GoogleDriveService.upDec st.remotes L = true := by
      rw [GoogleDriveService.upDec,
        GoogleDriveService.remoteMapGet_eq_none st.remotes L.id honly]
    exact List.mem_map.mpr
      ⟨L, List.mem_filter.mpr ⟨(hperm L).mpr hL, hdec⟩, rfl⟩
  · intro R hR honly
    have honlyLs : ∀ p ∈ ProfileManager.sortByUpdatedDesc st.locals,
        p.id ≠ R.profile.id := fun p hp => honly p ((hperm p).mp hp)
    have hany : ((ProfileManager.sortByUpdatedDesc st.locals).any
        fun p => p.id == R.profile.id) = false := by
      rw [List.any_eq_false]
      intro p hp
      simp [honlyLs p hp]
    have hdlmem : R.profile.name
        ∈ (GoogleDriveService.syncProfiles
            (ProfileManager.sortByUpdatedDesc st.locals) st.remotes
            st.clock).2.1.downloaded := by
      rw [GoogleDriveService.syncProfiles_downloaded]
      refine List.mem_append.mpr (Or.inr ?_)
      exact List.mem_map.mpr
        ⟨R, List.mem_filter.mpr ⟨hR, by simp [hany]⟩, rfl⟩
    have h0 : 0 < (GoogleDriveService.syncProfiles
        (ProfileManager.sortByUpdatedDesc st.locals) st.remotes
        st.clock).2.1.downloaded.length :=
      List.length_pos.mpr (List.ne_nil_of_mem hdlmem)
    refine ⟨by rw [gdriveSync_snd]; exact hdlmem, ?_⟩
    rw [gdriveSync_fst_of_dl_pos st h0]
    have hfind : (GoogleDriveService.syncProfiles
        (ProfileManager.sortByUpdatedDesc st.locals) st.remotes
        st.clock).1.find? (fun e => e.fid == R.profile.id) = some R := by
      rw [GoogleDriveService.syncProfiles_fst,
        GoogleDriveService.syncLoop_find?_fid _ _ _ _ _ _ honlyLs]
      exact GoogleDriveService.find?_fid_of_mem st.remotes R hwf hrid hR
    have hmem1 : R ∈ (GoogleDriveService.syncProfiles
        (ProfileManager.sortByUpdatedDesc st.locals) st.remotes st.clock).1 :=
      List.mem_of_find?_eq_some hfind
    have hwfnd := GoogleDriveService.syncLoop_wf_nodup st.remotes
      (ProfileManager.sortByUpdatedDesc st.locals) st.remotes ⟨[], [], []⟩
      st.clock hwf hrid
    have hpnd : (((GoogleDriveService.syncProfiles
        (ProfileManager.sortByUpdatedDesc st.locals) st.remotes
        st.clock).1.map fun e => e.profile).map fun p => p.id).Nodup := by
      rw [List.map_map]
      rw [GoogleDriveService.syncProfiles_fst]
      exact hwfnd.2
    have hpmem : R.profile ∈ (GoogleDriveService.syncProfiles
        (ProfileManager.sortByUpdatedDesc st.locals) st.remotes
        st.clock).1.map fun e => e.profile :=
      List.mem_map_of_mem (fun e => e.profile) hmem1
    have hadec : applyDec (ProfileManager.sortByUpdatedDesc st.locals)
        R.profile = true := by
      rw [applyDec, List.find?_eq_none.mpr]
      intro p hp
      simp [honlyLs p hp]
    exact (applyLoop_storeGet (ProfileManager.sortByUpdatedDesc st.locals) _
      R.profile hpmem hpnd st.locals _).1 hadec

/-- C7 witness: a state holding one local-only and one remote-only profile
propagates both: the local one is uploaded, the remote one is reported as
downloaded and persisted locally. -/
theorem c7_witness :
    ("la" ∈ (gdriveSync ⟨[sample "a" "la" 5],
        [⟨"b", 7, sample "b" "rb" 7⟩], 10⟩).2.uploaded)
    ∧ ("rb" ∈ (gdriveSync ⟨[sample "a" "la" 5],
        [⟨"b", 7, sample "b" "rb" 7⟩], 10⟩).2.downloaded)
    ∧ ∃ t, ProfileManager.storeGet
        (gdriveSync ⟨[sample "a" "la" 5],
          [⟨"b", 7, sample "b" "rb" 7⟩], 10⟩).1.locals "b"
      = some { sample "b" "rb" 7 with updatedAt := t } := by
  have h := c7_new_only_propagation
    ⟨[sample "a" "la" 5], [⟨"b", 7, sample "b" "rb" 7⟩], 10⟩
    (by decide) (by decide)
  refine ⟨h.1 (sample "a" "la" 5) (by decide) (by decide), ?_, ?_⟩
  · exact (h.2 ⟨"b", 7, sample "b" "rb" 7⟩ (by decide) (by decide)).1
  · exact (h.2 ⟨"b", 7, sample "b" "rb" 7⟩ (by decide) (by decide)).2

/-- C2: the claim is refuted at a pass where the remote blob is strictly newer
by server `modifiedTime` (10 against a local `updatedAt` of 5), so the id is
marked for download, and the re-check at apply time still has the local record
older than `modifiedTime` — yet the pulled profile is not upserted, because
the handler compares the pulled profile's own `updatedAt` field (5, equal to
the local one), not the remote `modifiedTime`. -/
theorem c2_counterexample :
    (gdriveSync ⟨[sample "x" "loc" 5], [⟨"x", 10, sample "x" "rem" 5⟩], 20⟩).2.downloaded
      = ["loc"]
    ∧ (sample "x" "loc" 5).updatedAt < 10
    ∧ (gdriveSync ⟨[sample "x" "loc" 5], [⟨"x", 10, sample "x" "rem" 5⟩], 20⟩).1.locals
      = [sample "x" "loc" 5] := by
  refine ⟨by decide, by decide, by decide⟩

/-- C2 (amended): in the download-apply phase the pulled remote profile is
upserted into the local store iff no profile of the listing taken at the start
of the handler has its id, or that profile's `updatedAt` is strictly less than
the pulled profile's own `updatedAt` field; the server `modifiedTime` is not
consulted at apply time.  Pulled ids are assumed unique, as one blob per
profile id guarantees. -/
theorem c2_amended_apply_condition (locals0 pulled store : List Profile)
    (clock : Nat) (rp : Profile) (hmem : rp ∈ pulled)
    (hnd : (pulled.map fun p => p.id).Nodup) :
    (applyDec locals0 rp = true →
      ∃ t, ProfileManager.storeGet (applyLoop locals0 pulled store clock).1 rp.id
        = some { rp with updatedAt := t })
    ∧ (applyDec locals0 rp = false →
      ProfileManager.storeGet (applyLoop locals0 pulled store clock).1 rp.id
        = ProfileManager.storeGet store rp.id) :=
  applyLoop_storeGet locals0 pulled rp hmem hnd store clock

/-- C2 witness: a pulled profile with no local counterpart is upserted. -/
theorem c2_witness :
    ∃ t, ProfileManager.storeGet
        (applyLoop [] [sample "x" "rem" 5] [] 0).1 (sample "x" "rem" 5).id
      = some { sample "x" "rem" 5 with updatedAt := t } :=
  (c2_amended_apply_condition [] [sample "x" "rem" 5] [] 0 (sample "x" "rem" 5)
    (by decide) (by decide)).1 (by decide)

/-- C6: `listProfiles` on a store whose second record is undecodable returns
only the record before it — the decodable record after the corrupt one is
dropped, refuting the claim that every remaining valid record is returned. -/
theorem c6_counterexample :
    ProfileManager.listProfiles
        [RawRecord.ok (sample "a" "A" 2), RawRecord.bad, RawRecord.ok (sample "c" "C" 1)]
      = [sample "a" "A" 2] := by
  decide

/-- C6 (amended): `listProfiles` never fails; it returns, newest-first, exactly
the decodable records that precede the first undecodable record of the store —
decodable records after the first undecodable one are omitted. -/
theorem c6_amended_prefix_isolation (store : List RawRecord) :
    List.Perm (ProfileManager.listProfiles store)
      ((store.takeWhile fun r => match r with
          | RawRecord.ok _ => true | RawRecord.bad => false).filterMap
        fun r => match r with
          | RawRecord.ok p => some p | RawRecord.bad => none) := by
  rw [ProfileManager.listProfiles, ← ProfileManager.readAll_eq_takeWhile]
  exact List.perm_insertionSort _ _

/-- C8: two stores holding the same two profiles (equal `updatedAt`, distinct
ids) in opposite enumeration orders list them in opposite orders, so the
tie order is not determined by id — there is no id tie-break. -/
theorem c8_counterexample :
    ProfileManager.listProfiles
        [RawRecord.ok (sample "b" "B" 5), RawRecord.ok (sample "a" "A" 5)]
      = [sample "b" "B" 5, sample "a" "A" 5]
    ∧ ProfileManager.listProfiles
        [RawRecord.ok (sample "a" "A" 5), RawRecord.ok (sample "b" "B" 5)]
      = [sample "a" "A" 5, sample "b" "B" 5]
    ∧ sample "a" "A" 5 ≠ sample "b" "B" 5
    ∧ (sample "a" "A" 5).updatedAt = (sample "b" "B" 5).updatedAt := by
  refine ⟨by decide, by decide, by decide, rfl⟩

/-- C8 (amended): `listProfiles` returns the decoded records sorted newest
`updatedAt` first by a stable sort: profiles with equal `updatedAt` keep the
store's enumeration order; no tie-break by id is applied. -/
theorem c8_amended_stable_order (store : List RawRecord) :
    List.Sorted ProfileManager.updLE (ProfileManager.listProfiles store)
    ∧ ∀ t : Nat,
        (ProfileManager.listProfiles store).filter (fun p => p.updatedAt == t)
          = (ProfileManager.readAll store).filter (fun p => p.updatedAt == t) := by
  constructor
  · exact List.sorted_insertionSort _ _
  · intro t
    exact ProfileManager.filter_sortByUpdatedDesc t _

namespace ProfileManager

/-- The slice of the on-disk WoW account tree that `loadProfile` and
`createBackup` touch: the `SavedVariables` directory (absent when `none`), the
`config-cache.wtf` file of the account directory, and the backups directory
(one entry per backup run, named `<accountName>-<timestamp>`). -/
structure WTFState where
  savedVars : Option (List (String × String))
  configCache : Option String
  backups : List (String × List (String × String))
deriving DecidableEq, Repr

/-- Structural suffix test on reversed character lists (the core
`String.endsWith` does not reduce in the kernel; this is the same function on
`String.data`). -/
def revLeadEq : List Char → List Char → Bool
  | [], _ => true
  | _ :: _, [] => false
  | a :: as, b :: bs => a == b && revLeadEq as bs

def endsWithStr (s suf : String) : Bool := revLeadEq suf.data.reverse s.data.reverse

/-- The file filter of `createBackup` (profileManager.ts:298):
`file.endsWith('.lua') || file.endsWith('.lua.bak')`. -/
def luaFile (n : String) : Bool := endsWithStr n ".lua" || endsWithStr n ".lua.bak"

/-- Structural split on `/`, the semantics of JS `fileKey.split('/')`. -/
def splitChars : List Char → List (List Char)
  | [] => [[]]
  | a :: rest =>
    let ps := splitChars rest
    if a == '/' then [] :: ps
    else
      match ps with
      | [] => [[a]]
      | p :: pr => (a :: p) :: pr

def splitOnSlash (s : String) : List String :=
  (splitChars s.data).map fun cs => String.mk cs

/-- The copy loop of `createBackup`: copy each `.lua`/`.lua.bak` file of the
source directory in order; `fails` says which copies throw
(`fs.copyFileSync`), aborting the loop. -/
def backupCopy (fails : String → Bool) :
    List (String × String) → Except Unit (List (String × String))
  | [] => Except.ok []
  | (n, c) :: rest =>
    if luaFile n then
      if fails n then Except.error ()
      else
        match backupCopy fails rest with
        | Except.error e => Except.error e
        | Except.ok r => Except.ok ((n, c) :: r)
    else backupCopy fails rest

/-- `ProfileManager.createBackup` (profileManager.ts:272-304): no-op when the
`SavedVariables` directory does not exist; else create a fresh backup
directory named by account and timestamp and copy every `.lua`/`.lua.bak`
file into it. -/
def createBackup (fails : String → Bool) (clock : Nat) (accountName : String)
    (fs : WTFState) : Except Unit WTFState :=
  match fs.savedVars with
  | none => Except.ok fs
  | some files =>
    match backupCopy fails files with
    | Except.error e => Except.error e
    | Except.ok copied =>
      Except.ok { fs with
        backups := fs.backups ++ [(accountName ++ "-" ++ toString clock, copied)] }

/-- `fs.writeFileSync` into `SavedVariables` (after a recursive `mkdirSync` of
the parent): create the directory if absent, replace the file in place or
append it. -/
def fileUpsert (n c : String) : List (String × String) → List (String × String)
  | [] => [(n, c)]
  | (m, d) :: rest => if m = n then (n, c) :: rest else (m, d) :: fileUpsert n c rest

def writeSavedVar (n c : String) :
    Option (List (String × String)) → Option (List (String × String))
  | none => some [(n, c)]
  | some files => some (fileUpsert n c files)

/-- The inner file loop of `loadProfile` (profileManager.ts:247-263): split the
file key on `/`; keys scoped `account` are written into `SavedVariables`,
other scopes are skipped.  A key that is exactly `account` with no second
segment makes `path.join` throw on an undefined file name. -/
def applyAddonFiles :
    List (String × String) → Option (List (String × String)) →
      Except Unit (Option (List (String × String)))
  | [], sv => Except.ok sv
  | (key, content) :: rest, sv =>
    match splitOnSlash key with
    | [level] =>
      if level = "account" then Except.error ()
      else applyAddonFiles rest sv
    | level :: fileName :: _ =>
      if level = "account" then
        applyAddonFiles rest (writeSavedVar fileName content sv)
      else applyAddonFiles rest sv
    | [] => applyAddonFiles rest sv

/-- The addon loop of `loadProfile` (profileManager.ts:244-264): disabled
bundles are skipped. -/
def applyAddons :
    List (AddonName × AddonConfig) → Option (List (String × String)) →
      Except Unit (Option (List (String × String)))
  | [], sv => Except.ok sv
  | (_, cfg) :: rest, sv =>
    if cfg.enabled then
      match applyAddonFiles cfg.files sv with
      | Except.error e => Except.error e
      | Except.ok sv' => applyAddons rest sv'
    else applyAddons rest sv

/-- The write phase of `loadProfile`: the addon files, then the game-settings
blob into `config-cache.wtf` (profileManager.ts:266-269).  The guard
`if (profile.gameSettings)` is a JS truthiness check, so an absent blob and an
empty-string blob both skip the write. -/
def applyAll (p : Profile) (fs : WTFState) : Except Unit WTFState :=
  match applyAddons p.addons fs.savedVars with
  | Except.error e => Except.error e
  | Except.ok sv' =>
    match p.gameSettings with
    | some g =>
      if g = "" then Except.ok { fs with savedVars := sv' }
      else Except.ok { fs with savedVars := sv', configCache := some g }
    | none => Except.ok { fs with savedVars := sv' }

/-- `ProfileManager.loadProfile` (profileManager.ts:231-270): back up first,
then write every enabled bundle's files and the game-settings blob. -/
def loadProfile (fails : String → Bool) (clock : Nat) (p : Profile)
    (fs : WTFState) : Except Unit WTFState :=
  match createBackup fails clock (p.accountName.getD "") fs with
  | Except.error e => Except.error e
  | Except.ok fs1 => applyAll p fs1

theorem backupCopy_ok (fails : String → Bool) :
    ∀ files copied, backupCopy fails files = Except.ok copied →
      copied = files.filter fun f => luaFile f.1 := by
  intro files
  induction files with
  | nil => intro copied h; cases h; rfl
  | cons f rest ih =>
    intro copied h
    obtain ⟨n, c⟩ := f
    by_cases hl : luaFile n
    · rw [backupCopy, if_pos hl] at h
      by_cases hf : fails n
      · rw [if_pos hf] at h; cases h
      · rw [if_neg hf] at h
        cases hrec : backupCopy fails rest with
        | error e => rw [hrec] at h; cases h
        | ok r =>
          rw [hrec] at h
          cases h
          rw [List.filter_cons]
          simp only [hl, if_pos]
          rw [ih r hrec]
    · rw [backupCopy, if_neg hl] at h
      rw [List.filter_cons]
      have hl' : luaFile (n, c).1 = false := by
        cases hb : luaFile n
        · rfl
        · exact absurd hb hl
      rw [hl']
      simp only [Bool.false_eq_true, if_false]
      exact ih copied h

theorem applyAll_backups (p : Profile) (fs fs' : WTFState)
    (h : applyAll p fs = Except.ok fs') : fs'.backups = fs.backups := by
  rw [applyAll] at h
  cases ha : applyAddons p.addons fs.savedVars with
  | error e => rw [ha] at h; cases h
  | ok sv' =>
    rw [ha] at h
    cases hg : p.gameSettings with
    | none => rw [hg] at h; cases h; rfl
    | some g =>
      rw [hg] at h
      dsimp only at h
      by_cases hge : g = ""
      · rw [if_pos hge] at h; cases h; rfl
      · rw [if_neg hge] at h; cases h; rfl

theorem applyAll_configCache (p : Profile) (fs fs' : WTFState) (g : String)
    (h : applyAll p fs = Except.ok fs') (hg : p.gameSettings = some g)
    (hge : g ≠ "") : fs'.configCache = some g := by
  rw [applyAll] at h
  cases ha : applyAddons p.addons fs.savedVars with
  | error e => rw [ha] at h; cases h
  | ok sv' =>
    rw [ha, hg] at h
    dsimp only at h
    rw [if_neg hge] at h
    cases h
    rfl

/-- `AddonFileConfig` and the static `ADDON_FILES` table
(profileManager.ts:6-41). -/
structure AddonFileConfig where
  accountLevel : List String
  characterLevel : Option (List String)
deriving DecidableEq, Repr

def ADDON_FILES : AddonName → AddonFileConfig
  | AddonName.ConsolePort =>
    ⟨["ConsolePort.lua", "ConsolePortBar.lua", "ConsolePort_Config.lua"], none⟩
  | AddonName.ElvUI => ⟨["ElvUI.lua"], some ["ElvUI.lua"]⟩
  | AddonName.WeakAuras => ⟨["WeakAuras.lua", "WeakAurasSaved.lua"], none⟩
  | AddonName.Details => ⟨["Details.lua", "Details_DataStorage.lua"], none⟩
  | AddonName.DBM => ⟨["DBM-Core.lua", "DBM-StatusBarTimers.lua"], some ["DBM-Core.lua"]⟩
  | AddonName.BigWigs => ⟨["BigWigs.lua"], some ["BigWigs.lua"]⟩
  | AddonName.Bartender4 => ⟨["Bartender4.lua"], some ["Bartender4.lua"]⟩
  | AddonName.Dominos => ⟨["Dominos.lua"], some ["Dominos.lua"]⟩

/-- The per-addon file loop of `createFromCurrentSettings`
(profileManager.ts:194-207): for each account-level file name, when the file
exists (`lookup` is some) and its read does not throw, store its content under
the key `account/<fileName>`, in loop order. -/
def captureFiles (savedFiles : List (String × String)) (readFails : String → Bool) :
    List String → List (String × String)
  | [] => []
  | fn :: rest =>
    match savedFiles.lookup fn with
    | none => captureFiles savedFiles readFails rest
    | some content =>
      if readFails fn then captureFiles savedFiles readFails rest
      else ("account/" ++ fn, content) :: captureFiles savedFiles readFails rest

/-- JS object property read on the profile's `addons` map. -/
def lookupAddon (a : AddonName) : List (AddonName × AddonConfig) → Option AddonConfig
  | [] => none
  | (b, c) :: rest => if b = a then some c else lookupAddon a rest

/-- JS object property assignment on the profile's `addons` map. -/
def upsertAddon (a : AddonName) (cfg : AddonConfig) :
    List (AddonName × AddonConfig) → List (AddonName × AddonConfig)
  | [] => [(a, cfg)]
  | (b, c) :: rest => if b = a then (a, cfg) :: rest else (b, c) :: upsertAddon a cfg rest

/-- The addon loop of `createFromCurrentSettings` (profileManager.ts:182-213):
an addon is stored, with `enabled := true`, only when at least one file was
captured (`Object.keys(addonData.files).length > 0`). -/
def captureAddons (savedFiles : List (String × String)) (readFails : String → Bool) :
    List AddonName → List (AddonName × AddonConfig) → List (AddonName × AddonConfig)
  | [], acc => acc
  | a :: rest, acc =>
    let fsA := captureFiles savedFiles readFails (ADDON_FILES a).accountLevel
    if 0 < fsA.length then
      captureAddons savedFiles readFails rest (upsertAddon a ⟨true, fsA⟩ acc)
    else
      captureAddons savedFiles readFails rest acc

/-- `ProfileManager.createFromCurrentSettings` (profileManager.ts:149-229).
`newId` stands for the generated uuid; `clock` for the creation time and
`clock + 1` for the `saveProfile` stamp on the returned (mutated) profile;
`readFails`/`ccFails` say which reads throw.  When the `SavedVariables`
directory does not exist the profile is saved empty. -/
def createFromCurrentSettings (newId nm : String) (clock : Nat)
    (version : WoWVersion) (accountName : String) (addons : List AddonName)
    (savedVars : Option (List (String × String))) (readFails : String → Bool)
    (configCache : Option String) (ccFails : Bool) : Profile :=
  match savedVars with
  | none =>
    ⟨newId, nm, none, none, clock, clock + 1, version, some accountName, [], none⟩
  | some files =>
    let adns := captureAddons files readFails addons []
    let gs : Option String :=
      match configCache with
      | some g => if ccFails then none else some g
      | none => none
    ⟨newId, nm, none, none, clock, clock + 1, version, some accountName, adns, gs⟩

theorem captureFiles_eq_nil (savedFiles : List (String × String))
    (readFails : String → Bool) :
    ∀ names, (∀ fn ∈ names, savedFiles.lookup fn = none) →
      captureFiles savedFiles readFails names = [] := by
  intro names
  induction names with
  | nil => intro _; rfl
  | cons fn rest ih =>
    intro h
    rw [captureFiles, h fn (List.mem_cons_self fn rest)]
    exact ih fun x hx => h x (List.mem_cons_of_mem fn hx)

theorem lookupAddon_upsert_ne (a b : AddonName) (cfg : AddonConfig)
    (h : b ≠ a) :
    ∀ m, lookupAddon a (upsertAddon b cfg m) = lookupAddon a m := by
  intro m
  induction m with
  | nil => simp [upsertAddon, lookupAddon, h]
  | cons x rest ih =>
    obtain ⟨y, c⟩ := x
    by_cases hy : y = b
    · rw [upsertAddon, if_pos hy, lookupAddon, if_neg h, lookupAddon]
      rw [hy]
      rw [if_neg h]
    · rw [upsertAddon, if_neg hy, lookupAddon, lookupAddon]
      by_cases hya : y = a
      · rw [if_pos hya, if_pos hya]
      · rw [if_neg hya, if_neg hya]
        exact ih

theorem captureAddons_lookup_none (savedFiles : List (String × String))
    (readFails : String → Bool) (a : AddonName)
    (ha : captureFiles savedFiles readFails (ADDON_FILES a).accountLevel = []) :
    ∀ addons acc, lookupAddon a acc = none →
      lookupAddon a (captureAddons savedFiles readFails addons acc) = none := by
  intro addons
  induction addons with
  | nil => intro acc hacc; exact hacc
  | cons b rest ih =>
    intro acc hacc
    by_cases hb : 0 < (captureFiles savedFiles readFails
        (ADDON_FILES b).accountLevel).length
    · simp only [captureAddons, if_pos hb]
      have hba : b ≠ a := by
        intro hba
        rw [hba, ha] at hb
        exact Nat.lt_irrefl 0 hb
      refine ih _ ?_
      rw [lookupAddon_upsert_ne a b _ hba acc]
      exact hacc
    · simp only [captureAddons, if_neg hb]
      exact ih acc hacc

theorem upsertAddon_mem (b : AddonName) (cfg : AddonConfig)
    (x : AddonName × AddonConfig) :
    ∀ m, x ∈ upsertAddon b cfg m → x = (b, cfg) ∨ x ∈ m := by
  intro m
  induction m with
  | nil =>
    intro h
    rw [upsertAddon] at h
    exact Or.inl (List.mem_singleton.mp h)
  | cons y rest ih =>
    obtain ⟨z, c⟩ := y
    intro h
    by_cases hz : z = b
    · rw [upsertAddon, if_pos hz] at h
      rcases List.mem_cons.mp h with h' | h'
      · exact Or.inl h'
      · exact Or.inr (List.mem_cons_of_mem _ h')
    · rw [upsertAddon, if_neg hz] at h
      rcases List.mem_cons.mp h with h' | h'
      · exact Or.inr (h' ▸ List.mem_cons_self _ rest)
      · rcases ih h' with h'' | h''
        · exact Or.inl h''
        · exact Or.inr (List.mem_cons_of_mem _ h'')

theorem captureAddons_mem (savedFiles : List (String × String))
    (readFails : String → Bool) :
    ∀ addons acc x, x ∈ captureAddons savedFiles readFails addons acc →
      x ∈ acc ∨ (x.2.enabled = true ∧ 0 < x.2.files.length) := by
  intro addons
  induction addons with
  | nil => intro acc x h; exact Or.inl h
  | cons b rest ih =>
    intro acc x h
    by_cases hb : 0 < (captureFiles savedFiles readFails
        (ADDON_FILES b).accountLevel).length
    · simp only [captureAddons, if_pos hb] at h
      rcases ih _ x h with h' | h'
      · rcases upsertAddon_mem b _ x acc h' with h'' | h''
        · refine Or.inr ?_
          rw [h'']
          exact ⟨rfl, hb⟩
        · exact Or.inl h''
      · exact Or.inr h'
    · simp only [captureAddons, if_neg hb] at h
      exact ih acc x h

end ProfileManager

/-- C9: in a capture, an add-on none of whose account-level settings files is
found on disk is absent from the resulting profile's addons map; and every
add-on the map does store has `enabled = true` and at least one captured
file. -/
theorem c9_capture_omits_empty (newId nm : String) (clock : Nat)
    (version : WoWVersion) (accountName : String) (addons : List AddonName)
    (savedVars : Option (List (String × String))) (readFails : String → Bool)
    (configCache : Option String) (ccFails : Bool) :
    (∀ a : AddonName,
      (∀ fn ∈ (ProfileManager.ADDON_FILES a).accountLevel,
        (savedVars.getD []).lookup fn = none) →
      ProfileManager.lookupAddon a
        (ProfileManager.createFromCurrentSettings newId nm clock version
          accountName addons savedVars readFails configCache ccFails).addons
        = none)
    ∧ (∀ (a : AddonName) (cfg : AddonConfig),
      (a, cfg) ∈ (ProfileManager.createFromCurrentSettings newId nm clock version
          accountName addons savedVars readFails configCache ccFails).addons →
      cfg.enabled = true ∧ 0 < cfg.files.length) := by
  cases savedVars with
  | none =>
    constructor
    · intro a _; rfl
    · intro a cfg h
      exact absurd h (List.not_mem_nil _)
  | some files =>
    constructor
    · intro a h
      refine ProfileManager.captureAddons_lookup_none files readFails a ?_ addons [] rfl
      exact ProfileManager.captureFiles_eq_nil files readFails _ h
    · intro a cfg h
      rcases ProfileManager.captureAddons_mem files readFails addons [] (a, cfg) h with
        h' | h'
      · exact absurd h' (List.not_mem_nil _)
      · exact h'

/-- C9 witness: requesting ElvUI and WeakAuras against a directory holding
only `WeakAuras.lua` omits ElvUI entirely and stores WeakAuras enabled with
one captured file. -/
theorem c9_witness :
    ProfileManager.lookupAddon AddonName.ElvUI
        (ProfileManager.createFromCurrentSettings "id1" "N" 3
          WoWVersion.retail "acct" [AddonName.ElvUI, AddonName.WeakAuras]
          (some [("WeakAuras.lua", "w")]) (fun _ => false) none false).addons
      = none
    ∧ (AddonConfig.mk true [("account/WeakAuras.lua", "w")]).enabled = true
    ∧ 0 < (AddonConfig.mk true [("account/WeakAuras.lua", "w")]).files.length := by
  have h := c9_capture_omits_empty "id1" "N" 3 WoWVersion.retail "acct"
    [AddonName.ElvUI, AddonName.WeakAuras] (some [("WeakAuras.lua", "w")])
    (fun _ => false) none false
  refine ⟨h.1 AddonName.ElvUI (by decide), ?_⟩
  have h2 := h.2 AddonName.WeakAuras ⟨true, [("account/WeakAuras.lua", "w")]⟩
    (by decide)
  exact ⟨h2.1, h2.2⟩

/-- C10: `saveProfile` persists the input profile with every field unchanged
except `updatedAt`, which is overwritten with the save time. -/
theorem c10_save_overwrites_only_updatedAt (now : Nat) (p : Profile)
    (store : List Profile) :
    ProfileManager.storeGet (ProfileManager.saveProfile now p store) p.id
      = some ⟨p.id, p.name, p.description, p.device, p.createdAt, now,
          p.wowVersion, p.accountName, p.addons, p.gameSettings⟩ :=
  ProfileManager.storeGet_upsert_self _ store

/-- C4: refuted by an apply onto a target whose `config-cache.wtf` exists
(content "OLD") and whose profile carries game settings: the apply succeeds,
overwrites `config-cache.wtf` with "NEW", and the only backup directory
created holds just the `.lua` files of `SavedVariables` — the pre-apply
game-settings file content appears in no backup. -/
theorem c4_counterexample :
    ProfileManager.loadProfile (fun _ => false) 9
        ⟨"g", "G", none, none, 0, 1, WoWVersion.retail, some "acct", [], some "NEW"⟩
        ⟨some [("X.lua", "xx")], some "OLD", []⟩
      = Except.ok ⟨some [("X.lua", "xx")], some "NEW", [("acct-9", [("X.lua", "xx")])]⟩
    ∧ (⟨some [("X.lua", "xx")], some "OLD", []⟩ :
        ProfileManager.WTFState).configCache = some "OLD" :=
  ⟨rfl, rfl⟩

/-- C4 (amended): every successful apply onto a target whose `SavedVariables`
directory exists creates exactly one new timestamped backup directory holding
the pre-apply content of every `.lua`/`.lua.bak` file of that directory (the
addon settings files live there and are covered); the game-settings blob file
`config-cache.wtf` is overwritten from the profile without being backed up
whenever the profile carries a non-empty blob (the JS truthiness guard skips
an empty-string blob). -/
theorem c4_amended_backup_scope (fails : String → Bool) (clock : Nat)
    (p : Profile) (fs fs' : ProfileManager.WTFState)
    (files : List (String × String))
    (hsv : fs.savedVars = some files)
    (hok : ProfileManager.loadProfile fails clock p fs = Except.ok fs') :
    fs'.backups = fs.backups
        ++ [(p.accountName.getD "" ++ "-" ++ toString clock,
             files.filter fun f => ProfileManager.luaFile f.1)]
    ∧ ∀ g, p.gameSettings = some g → g ≠ "" → fs'.configCache = some g := by
  rw [ProfileManager.loadProfile] at hok
  simp only [ProfileManager.createBackup, hsv] at hok
  cases hbc : ProfileManager.backupCopy fails files with
  | error e => rw [hbc] at hok; cases hok
  | ok copied =>
    rw [hbc] at hok
    have hcopied := ProfileManager.backupCopy_ok fails files copied hbc
    constructor
    · rw [ProfileManager.applyAll_backups p _ fs' hok, hcopied]
    · intro g hg hge
      exact ProfileManager.applyAll_configCache p _ fs' g hok hg hge

/-- C4 witness: a concrete successful apply whose backup directory holds
exactly the pre-apply `.lua` file, and whose (non-empty) game settings were
written. -/
theorem c4_witness :
    (⟨some [("X.lua", "xx"), ("skip.txt", "t")], some "NEW",
        [("acct-9", [("X.lua", "xx")])]⟩ :
      ProfileManager.WTFState).backups
      = [] ++ [("acct-9",
          [("X.lua", "xx"), ("skip.txt", "t")].filter
            fun f => ProfileManager.luaFile f.1)]
    ∧ (⟨some [("X.lua", "xx"), ("skip.txt", "t")], some "NEW",
        [("acct-9", [("X.lua", "xx")])]⟩ :
      ProfileManager.WTFState).configCache = some "NEW" := by
  have h := c4_amended_backup_scope (fun _ => false) 9
    ⟨"g", "G", none, none, 0, 1, WoWVersion.retail, some "acct", [], some "NEW"⟩
    ⟨some [("X.lua", "xx"), ("skip.txt", "t")], some "OLD", []⟩
    ⟨some [("X.lua", "xx"), ("skip.txt", "t")], some "NEW",
      [("acct-9", [("X.lua", "xx")])]⟩
    [("X.lua", "xx"), ("skip.txt", "t")] rfl rfl
  exact ⟨h.1, h.2 "NEW" rfl (by decide)⟩

/-- C5: if any single backup-file copy fails, `createBackup` throws and
`loadProfile` aborts with that error before any target write (the write phase
is never reached); and when the backup source directory does not exist, the
backup is a no-op (the filesystem, backups included, is untouched) and the
apply proceeds directly to the write phase. -/
theorem c5_backup_abort_and_noop (fails : String → Bool) (clock : Nat)
    (p : Profile) (fs : ProfileManager.WTFState) :
    (ProfileManager.createBackup fails clock (p.accountName.getD "") fs
        = Except.error () →
      ProfileManager.loadProfile fails clock p fs = Except.error ())
    ∧ (fs.savedVars = none →
      ProfileManager.createBackup fails clock (p.accountName.getD "") fs
          = Except.ok fs
      ∧ ProfileManager.loadProfile fails clock p fs
          = ProfileManager.applyAll p fs) := by
  constructor
  · intro h
    rw [ProfileManager.loadProfile, h]
  · intro h
    have hcb : ProfileManager.createBackup fails clock (p.accountName.getD "") fs
        = Except.ok fs := by
      simp only [ProfileManager.createBackup, h]
    exact ⟨hcb, by rw [ProfileManager.loadProfile, hcb]⟩

/-- C5 witness: a failing copy aborts a concrete apply; a missing
`SavedVariables` directory lets a concrete apply proceed as the bare write
phase. -/
theorem c5_witness :
    ProfileManager.loadProfile (fun _ => true) 0 (sample "p" "P" 1)
        ⟨some [("A.lua", "a")], none, []⟩ = Except.error ()
    ∧ ProfileManager.loadProfile (fun _ => true) 0 (sample "p" "P" 1)
        ⟨none, some "OLD", []⟩
      = ProfileManager.applyAll (sample "p" "P" 1) ⟨none, some "OLD", []⟩ :=
  ⟨(c5_backup_abort_and_noop (fun _ => true) 0 (sample "p" "P" 1)
      ⟨some [("A.lua", "a")], none, []⟩).1 rfl,
   ((c5_backup_abort_and_noop (fun _ => true) 0 (sample "p" "P" 1)
      ⟨none, some "OLD", []⟩).2 rfl).2⟩

end WowSync
